import Mathlib

/-!
Shallow embedding of the jsl-nlproc-toolkit utilities:
`plaintext.py` (class PlainText), `measurements.py` and
`convert_dir_to_char_ngrams.py`.  Strings are modelled as `List Char`;
Python regular-expression character classes are modelled as executable
character predicates over the character repertoire this code manipulates.
-/

/-- Models Python whitespace (the regex class backslash-s and the characters
removed by str.strip) over the characters handled here. -/
def isPythonSpace (c : Char) : Bool :=
  c = ' ' || c = '\t' || c = '\n' || c = '\r' || c = '\x0b' || c = '\x0c' ||
  c = '\u0085' || c = ' ' || c = ' ' ||
  (' ' ≤ c && c ≤ ' ') ||
  c = ' ' || c = ' ' || c = ' ' || c = ' ' || c = '　'

/-- Models the character class of PlainText.space_pattern_string:
whitespace plus the five full-width/CJK space-variant code points. -/
def isSpacePatternChar (c : Char) : Bool :=
  isPythonSpace c || c = '·' || c = '‧' || c = '　' ||
  c = '・' || c = '･'

/-- Models Python str.strip: remove leading and trailing whitespace. -/
def pyStrip (l : List Char) : List Char :=
  ((l.dropWhile isPythonSpace).reverse.dropWhile isPythonSpace).reverse

/-- PlainText.tokenize_word: pad the word with one space on each side, slide a
window of length ngram_size across the padded word (positions 0 to
len(padded) - ngram_size inclusive), keeping each window whose strip is
non-empty. -/
def tokenize_word (word : List Char) (ngram_size : Nat) : List (List Char) :=
  let padded := [' '] ++ word ++ [' ']
  ((List.range (padded.length + 1 - ngram_size)).map
      (fun i => (padded.drop i).take ngram_size)).filter
    (fun w => !(pyStrip w).isEmpty)

/-- Models the Python regex word character class (backslash-w with re.UNICODE):
ASCII alphanumerics, the underscore, and — over the repertoire this code
manipulates — every non-ASCII letter; the non-ASCII punctuation and space
code points this repository inspects are listed as the exceptions. -/
def isWordChar (c : Char) : Bool :=
  c.isAlphanum || c = '_' ||
  (127 < c.toNat && !(isSpacePatternChar c || c = '’'))

/-- Models the character class ([^\W_]|[’'-]) of
PlainText.word_split_pattern_string: a word character other than the
underscore, or one of the right single quote, apostrophe and hyphen. -/
def isWordSplitChar (c : Char) : Bool :=
  (isWordChar c && !(c = '_')) || c = '’' || c = '\'' || c = '-'

/-- Word-ness of the first character of a remainder (end of string counts as
a non-word position for the purpose of word boundaries). -/
def headIsWordChar : List Char → Bool
  | [] => false
  | c :: _ => isWordChar c

/-- Backtracking search for the longest prefix of the greedy character run
(of length at least 1) whose end position is a word boundary: tries length
m, m-1, ..., 1.  afterWord is the word-ness of the first character after
the run. -/
def findBoundaryEnd (run : List Char) (afterWord : Bool) : Nat → Option Nat
  | 0 => none
  | m + 1 =>
    let leftWord := isWordChar (run.getD m ' ')
    let rightWord :=
      match run[m + 1]? with
      | some c => isWordChar c
      | none => afterWord
    if leftWord != rightWord then some (m + 1)
    else findBoundaryEnd run afterWord m

/-- One attempt of the regex (\b([^\W_]|[’'-])+)\b at the current position:
prevWord is the word-ness of the character preceding the position.  On
success returns the matched word and the remaining text. -/
def tryWordSplitMatch (prevWord : Bool) (s : List Char) :
    Option (List Char × List Char) :=
  match s with
  | [] => none
  | c :: rest =>
    if isWordSplitChar c && (prevWord != isWordChar c) then
      let run := c :: rest.takeWhile isWordSplitChar
      let after := rest.dropWhile isWordSplitChar
      match findBoundaryEnd run (headIsWordChar after) run.length with
      | some m => some (run.take m, (c :: rest).drop m)
      | none => none
    else none

/-- Models re.findall of PlainText.word_split_pattern_string: scan left to
right, non-overlapping matches, advancing one character on failure.  The
fuel argument (instantiated with the text length) only drives termination:
every step consumes at least one character. -/
def word_split_findall_aux : Nat → Bool → List Char → List (List Char)
  | 0, _, _ => []
  | _ + 1, _, [] => []
  | fuel + 1, prevWord, c :: rest =>
    match tryWordSplitMatch prevWord (c :: rest) with
    | some (w, s) =>
      w :: word_split_findall_aux fuel (isWordChar (w.getLastD ' ')) s
    | none => word_split_findall_aux fuel (isWordChar c) rest

/-- All group-1 matches of PlainText.word_split_pattern_string in the text,
in order of occurrence. -/
def word_split_findall (text : List Char) : List (List Char) :=
  word_split_findall_aux text.length false text

/-- Models the Python regex digit class (backslash-d) over this repertoire. -/
def isDigitChar (c : Char) : Bool := c.isDigit

/-- One character of PlainText.nl_word_pattern_string, ((?=[^\d_])[\w’'-]):
not a digit and not an underscore, and a word character or one of the right
single quote, apostrophe and hyphen (re.IGNORECASE does not change these
classes). -/
def isNLWordChar (c : Char) : Bool :=
  (!isDigitChar c && !(c = '_')) &&
    (isWordChar c || c = '’' || c = '\'' || c = '-')

/-- re.fullmatch of PlainText.nl_word_pattern_string: one or more characters,
each in the class above. -/
def nl_word_fullmatch (w : List Char) : Bool :=
  !w.isEmpty && w.all isNLWordChar

/-- The removal condition of the filtering loop in
PlainText.get_natural_language_words. -/
def nl_word_dropped (w : List Char) : Bool :=
  w.length < 2 || !nl_word_fullmatch w

/-- Models Python list.remove: delete the first element equal to the value
(the ValueError case of a missing value never arises in this code, where the
removed value is always read from the list). -/
def pyRemove {α : Type} [DecidableEq α] : List α → α → List α
  | [], _ => []
  | x :: xs, a => if x = a then xs else x :: pyRemove xs a

/-- One iteration of the reverse-index removal loop of
get_natural_language_words, at index k of the current list. -/
def removeBadStep {α : Type} [DecidableEq α] (bad : α → Bool)
    (l : List α) (k : Nat) : List α :=
  match l[k]? with
  | some w => if bad w then pyRemove l w else l
  | none => l

/-- The loop `for i in reversed(range(n)): if bad(l[i]): l.remove(l[i])`,
processing indices k-1, k-2, ..., 0 of the mutating list. -/
def removeBadLoop {α : Type} [DecidableEq α] (bad : α → Bool) :
    List α → Nat → List α
  | l, 0 => l
  | l, k + 1 => removeBadLoop bad (removeBadStep bad l k) k

/-- PlainText.get_natural_language_words: the URL guard, then the regex word
scan, then the reverse-iteration removal of short words and words failing
the natural-word shape. -/
def get_natural_language_words (text : List Char) : List (List Char) :=
  if !(text.any isSpacePatternChar) && text.contains '/' then []
  else
    let nl_words := word_split_findall text
    removeBadLoop nl_word_dropped nl_words nl_words.length

/-- Uppercase and lowercase letters of the Latvian inclusion character class
of PlainText.get_language_charset that lie outside A-Za-z. -/
def latvian_extra_letters : List Char :=
  ['Ā','ā','Č','č','Ē','ē','Ģ','ģ','Ī','ī','Ķ','ķ','Ļ','ļ','Ņ','ņ','Š','š',
   'Ū','ū','Ž','ž']

/-- Membership in the regex character class [A-Za-zĀāČčĒēĢģĪīĶķĻļŅņŠšŪūŽž]. -/
def latvian_charset_member (c : Char) : Bool :=
  ('A' ≤ c && c ≤ 'Z') || ('a' ≤ c && c ≤ 'z') || latvian_extra_letters.contains c

/-- Membership in the regex character class [QqWwXxYy]. -/
def latvian_exclude_member (c : Char) : Bool :=
  (['Q','q','W','w','X','x','Y','y'] : List Char).contains c

/-- PlainText.get_language_charset: the static inclusion table holds only the
entry for 'lv'; a missing key yields the empty (falsy) charset, modelled as
none.  A regex character class string is modelled as a character predicate. -/
def get_language_charset (language : String) : Option (Char → Bool) :=
  List.lookup language [("lv", latvian_charset_member)]

/-- PlainText.get_language_exclude_charset: likewise only the 'lv' entry. -/
def get_language_exclude_charset (language : String) : Option (Char → Bool) :=
  List.lookup language [("lv", latvian_exclude_member)]

/-- PlainText.is_valid_language_word: every character of the stripped word
must lie in the inclusion charset when one is defined and outside the
exclusion charset when one is defined. -/
def is_valid_language_word (word : List Char) (language : String) : Bool :=
  let valid := get_language_charset language
  let invalid := get_language_exclude_charset language
  (pyStrip word).all (fun c =>
    !((match valid with | some p => !p c | none => false) ||
      (match invalid with | some p => p c | none => false)))

/-- Models Python text.split with the literal three-character separator
backslash-r, question mark, backslash-n — exactly what
PlainText.extract_char_ngrams passes to str.split (a literal separator, not
a regular expression).  Fuel only drives termination. -/
def split_literal_rqn : Nat → List Char → List Char → List (List Char)
  | _, acc, [] => [acc.reverse]
  | 0, acc, rest => [acc.reverse ++ rest]
  | fuel + 1, acc, '\r' :: '?' :: '\n' :: rest =>
    acc.reverse :: split_literal_rqn fuel [] rest
  | fuel + 1, acc, c :: rest => split_literal_rqn fuel (c :: acc) rest

/-- The list of lines produced by text.split of the literal '\r?\n'. -/
def split_rqn (text : List Char) : List (List Char) :=
  split_literal_rqn text.length [] text

/-- Splitting on the actual newline character, for the per-line reference
computation of the spec. -/
def split_newlines (l : List Char) : List (List Char) :=
  l.foldr
    (fun c acc =>
      if c = '\n' then [] :: acc
      else (c :: acc.headD []) :: acc.tail)
    [[]]

/-- The multiset (as an in-order list) of size-i n-gram tokens contributed by
one line: natural-language words of the line that pass the language filter,
each tokenized into its character n-grams of size i. -/
def line_ngram_tokens (language : String) (i : Nat) (line : List Char) :
    List (List Char) :=
  (get_natural_language_words line).flatMap
    (fun w => if is_valid_language_word w language then tokenize_word w i else [])

/-- PlainText.extract_char_ngrams, presented as the count of each token: the
dictionary maps each n-gram length 1..4 to the number of occurrences of each
token, where the text is split with str.split on the literal '\r?\n'. -/
def extract_char_ngrams (text : List Char) (language : String)
    (i : Nat) (token : List Char) : Nat :=
  if 1 ≤ i && i ≤ 4 then
    ((split_rqn text).flatMap (line_ngram_tokens language i)).count token
  else 0

/-- Reference computation written from the claim's words, for comparison with
extract_char_ngrams: identical except that the text is split at actual
newline characters, processing the text line by line. -/
def extract_char_ngrams_per_line (text : List Char) (language : String)
    (i : Nat) (token : List Char) : Nat :=
  if 1 ≤ i && i ≤ 4 then
    ((split_newlines text).flatMap (line_ngram_tokens language i)).count token
  else 0

/-- measurements.calculate_precision: fold over the benchmark pairs in order,
counting pairs whose source is an aligned key (correct when the aligned
translation matches) and otherwise pairs whose target occurs among the
aligned values; the final division is modelled in ℚ, with none standing for
the ZeroDivisionError raised when the denominator is zero. -/
def calculate_precision (benchmark_pairs aligned_pairs : List (String × String)) :
    Option ℚ :=
  let r := benchmark_pairs.foldl
    (fun (acc : Nat × Nat) p =>
      match aligned_pairs.lookup p.1 with
      | some t => (acc.1 + 1, if p.2 = t then acc.2 + 1 else acc.2)
      | none =>
        if (aligned_pairs.map Prod.snd).contains p.2 then (acc.1 + 1, acc.2)
        else acc)
    (0, 0)
  if r.1 = 0 then none else some ((r.2 : ℚ) / (r.1 : ℚ))

/-- measurements.calculate_recall: count the benchmark pairs reproduced
exactly in the aligned pairs and divide by the benchmark size; none stands
for the ZeroDivisionError raised on an empty benchmark. -/
def calculate_recall (benchmark_pairs aligned_pairs : List (String × String)) :
    Option ℚ :=
  let aligned_correctly := benchmark_pairs.foldl
    (fun (n : Nat) p =>
      match aligned_pairs.lookup p.1 with
      | some t => if p.2 = t then n + 1 else n
      | none => n)
    0
  if benchmark_pairs.length = 0 then none
  else some ((aligned_correctly : ℚ) / (benchmark_pairs.length : ℚ))

/-- The benchmark pairs of the spec's precision/recall example. -/
def demo_benchmark : List (String × String) := [("a", "x"), ("b", "y")]

/-- The aligned pairs of the spec's precision/recall example. -/
def demo_aligned : List (String × String) := [("a", "x"), ("b", "z")]

/-- Modelled from the spec: PlainText.string_to_char_ngram_string is called
by convert_dir_to_char_ngrams.main but is absent from plaintext.py; per the
spec each line is replaced by its space-joined character n-gram
transformation. -/
def string_to_char_ngram_string (s : List Char) (ngram_length : Nat) : List Char :=
  List.intercalate [' '] (tokenize_word s ngram_length)

/-- One directory entry as seen by os.scandir: a name, whether it is a
regular file, and its content as a list of lines. -/
structure DirEntry where
  name : String
  isFile : Bool
  lines : List (List Char)
deriving DecidableEq

/-- convert_dir_to_char_ngrams.main over an abstract directory: for every
regular file of the source directory, a same-named destination file whose
lines are the stripped input lines converted to space-joined character
n-grams. -/
def convert_dir_main (entries : List DirEntry) (ngram_length : Nat) :
    List (String × List (List Char)) :=
  (entries.filter (fun e => e.isFile)).map
    (fun e =>
      (e.name,
       e.lines.map (fun line => string_to_char_ngram_string (pyStrip line) ngram_length)))

section RemoveLoopLemmas

variable {α : Type} [DecidableEq α] (bad : α → Bool)

theorem filter_not_bad_of_all (l : List α) (h : ∀ w ∈ l, bad w = false) :
    l.filter (fun x => !bad x) = l := by
  induction l with
  | nil => rfl
  | cons x xs ih =>
    have hx : bad x = false := h x (List.mem_cons_self x xs)
    simp only [List.filter_cons, hx, Bool.not_false, if_pos trivial]
    rw [ih (fun w hw => h w (List.mem_cons_of_mem x hw))]

theorem pyRemove_filter_not_bad (a : α) (ha : bad a = true) (l : List α) :
    (pyRemove l a).filter (fun x => !bad x) = l.filter (fun x => !bad x) := by
  induction l with
  | nil => rfl
  | cons x xs ih =>
    by_cases hxa : x = a
    · subst hxa
      simp [pyRemove, List.filter_cons, ha]
    · simp only [pyRemove, if_neg hxa, List.filter_cons]
      rw [ih]

theorem pyRemove_filter_bad_length (a : α) (ha : bad a = true) (l : List α)
    (hm : a ∈ l) :
    ((pyRemove l a).filter bad).length + 1 = (l.filter bad).length := by
  induction l with
  | nil => cases hm
  | cons x xs ih =>
    by_cases hxa : x = a
    · subst hxa
      simp [pyRemove, List.filter_cons, ha]
    · have hm' : a ∈ xs := by
        cases List.mem_cons.mp hm with
        | inl h => exact absurd h.symm hxa
        | inr h => exact h
      simp only [pyRemove, if_neg hxa, List.filter_cons]
      have hrec := ih hm'
      cases hb : bad x with
      | true => simp only [hb, if_pos trivial, List.length_cons]; omega
      | false => simpa only [hb] using hrec

theorem pyRemove_drop (a : α) :
    ∀ (l : List α) (k : Nat), l[k]? = some a →
      (pyRemove l a).drop k = l.drop (k + 1) := by
  intro l
  induction l with
  | nil => intro k h; cases h
  | cons x xs ih =>
    intro k h
    cases k with
    | zero =>
      have hx : x = a := by simpa using h
      subst hx
      simp [pyRemove]
    | succ k =>
      have h' : xs[k]? = some a := by simpa using h
      by_cases hxa : x = a
      · subst hxa
        simp only [pyRemove, if_pos rfl]
        rfl
      · simp only [pyRemove, if_neg hxa, List.drop_succ_cons]
        exact ih k h'

theorem drop_eq_cons_of_getElem? :
    ∀ (l : List α) (k : Nat) (a : α), l[k]? = some a →
      l.drop k = a :: l.drop (k + 1) := by
  intro l
  induction l with
  | nil => intro k a h; cases h
  | cons x xs ih =>
    intro k a h
    cases k with
    | zero =>
      have hx : x = a := by simpa using h
      subst hx
      rfl
    | succ k =>
      have h' : xs[k]? = some a := by simpa using h
      simpa using ih k a h'

theorem mem_of_getElem?_eq_some {l : List α} {k : Nat} {a : α}
    (h : l[k]? = some a) : a ∈ l := by
  induction l generalizing k with
  | nil => cases h
  | cons x xs ih =>
    cases k with
    | zero =>
      have hx : x = a := by simpa using h
      exact hx ▸ List.mem_cons_self x xs
    | succ k =>
      exact List.mem_cons_of_mem x (ih (by simpa using h))

theorem filter_length_le_of_drop :
    ∀ (l : List α) (k : Nat), (∀ w ∈ l.drop k, bad w = false) →
      (l.filter bad).length ≤ k := by
  intro l
  induction l with
  | nil => intro k _; simp
  | cons x xs ih =>
    intro k h
    cases k with
    | zero =>
      have hx : bad x = false := h x (List.mem_cons_self x xs)
      have hxs : ∀ w ∈ xs, bad w = false :=
        fun w hw => h w (List.mem_cons_of_mem x hw)
      simpa only [List.filter_cons, hx] using ih 0 (by simpa using hxs)
    | succ k =>
      have h' : ∀ w ∈ xs.drop k, bad w = false := by
        intro w hw
        exact h w (by simpa using hw)
      simp only [List.filter_cons]
      have hrec := ih k h'
      cases hb : bad x with
      | true => simp only [if_pos trivial, List.length_cons]; omega
      | false =>
        rw [if_neg Bool.false_ne_true]
        omega

theorem removeBadLoop_eq_filter_aux :
    ∀ (k : Nat) (l : List α), (∀ w ∈ l.drop k, bad w = false) →
      (l.filter bad).length ≤ k →
      removeBadLoop bad l k = l.filter (fun x => !bad x) := by
  intro k
  induction k with
  | zero =>
    intro l h _
    simpa [removeBadLoop] using (filter_not_bad_of_all bad l (by simpa using h)).symm
  | succ k ih =>
    intro l h hc
    show removeBadLoop bad (removeBadStep bad l k) k = l.filter (fun x => !bad x)
    cases hget : l[k]? with
    | none =>
      have hlen : l.length ≤ k := by
        by_contra hlt
        have : k < l.length := Nat.lt_of_not_le hlt
        simp [List.getElem?_eq_getElem this] at hget
      have hdrop : l.drop k = [] := List.drop_eq_nil_of_le hlen
      have hstep : removeBadStep bad l k = l := by simp [removeBadStep, hget]
      rw [hstep]
      exact ih l (by simp [hdrop]) (Nat.le_trans (List.length_filter_le _ _) hlen)
    | some w =>
      have hdropk : l.drop k = w :: l.drop (k + 1) :=
        drop_eq_cons_of_getElem? l k w hget
      cases hw : bad w with
      | false =>
        have hstep : removeBadStep bad l k = l := by
          simp [removeBadStep, hget, hw]
        rw [hstep]
        have hdk : ∀ x ∈ l.drop k, bad x = false := by
          intro x hx
          rw [hdropk] at hx
          cases List.mem_cons.mp hx with
          | inl hxe => exact hxe ▸ hw
          | inr hxe => exact h x hxe
        exact ih l hdk (filter_length_le_of_drop bad l k hdk)
      | true =>
        have hstep : removeBadStep bad l k = pyRemove l w := by
          simp [removeBadStep, hget, hw]
        rw [hstep]
        have hmem : w ∈ l := mem_of_getElem?_eq_some hget
        have hdk : ∀ x ∈ (pyRemove l w).drop k, bad x = false := by
          intro x hx
          rw [pyRemove_drop w l k hget] at hx
          exact h x hx
        have hck : ((pyRemove l w).filter bad).length ≤ k := by
          have := pyRemove_filter_bad_length bad w hw l hmem
          omega
        rw [ih (pyRemove l w) hdk hck]
        exact pyRemove_filter_not_bad bad w hw l

theorem removeBadLoop_eq_filter (l : List α) :
    removeBadLoop bad l l.length = l.filter (fun x => !bad x) := by
  apply removeBadLoop_eq_filter_aux bad l.length l
  · simp
  · exact List.length_filter_le _ _

end RemoveLoopLemmas

/-- pyStrip of an all-space list is empty. -/
theorem pyStrip_eq_nil_of_all_space (l : List Char) (h : ∀ c ∈ l, c = ' ') :
    pyStrip l = [] := by
  have hd : l.dropWhile isPythonSpace = [] := by
    induction l with
    | nil => rfl
    | cons c cs ih =>
      have hc : c = ' ' := h c (List.mem_cons_self c cs)
      subst hc
      rw [List.dropWhile_cons]
      simp only [show isPythonSpace ' ' = true from by decide, if_pos trivial]
      exact ih (fun c hc => h c (List.mem_cons_of_mem _ hc))
  simp [pyStrip, hd]

/-- The URL guard and the removal loop of get_natural_language_words,
expressed as an if-then-else over an order-preserving filter of the regex
candidates. -/
theorem get_natural_language_words_eq (text : List Char) :
    get_natural_language_words text =
      if !(text.any isSpacePatternChar) && text.contains '/' then []
      else (word_split_findall text).filter (fun w => !nl_word_dropped w) := by
  unfold get_natural_language_words
  by_cases hg : (!(text.any isSpacePatternChar) && text.contains '/') = true
  · rw [if_pos hg, if_pos hg]
  · rw [if_neg hg, if_neg hg]
    exact removeBadLoop_eq_filter nl_word_dropped (word_split_findall text)

/-- C1: for the benchmark pairs a:x, b:y and aligned pairs a:x, b:z the claim
states precision 1.0; in fact both benchmark keys are aligned keys, so the
denominator is 2 with one correct pair, and precision is 0.5. -/
theorem calculate_precision_demo_not_one :
    ¬ calculate_precision demo_benchmark demo_aligned = some 1 := by
  simp [calculate_precision, demo_benchmark, demo_aligned, List.lookup]

/-- C1 (amended): for benchmark pairs a:x, b:y and aligned pairs a:x, b:z,
calculate_precision returns 0.5 (both benchmark keys occur among the aligned
keys, one of the two is correct) and calculate_recall returns 0.5. -/
theorem calculate_precision_recall_demo_halves :
    calculate_precision demo_benchmark demo_aligned = some (1/2 : ℚ) ∧
    calculate_recall demo_benchmark demo_aligned = some (1/2 : ℚ) := by
  constructor
  · simp [calculate_precision, demo_benchmark, demo_aligned, List.lookup]
  · simp [calculate_recall, demo_benchmark, demo_aligned, List.lookup]

/-- C2: with an empty benchmark the recall denominator is zero, and with no
benchmark entry present in the aligned pairs the precision denominator is
zero; in both cases the code divides by zero (modelled as none, standing for
the propagated ZeroDivisionError) instead of signalling the explicit
EmptyBenchmark / NoOverlap errors the claim requires. -/
theorem division_fault_on_empty_denominators :
    calculate_recall [] demo_aligned = none ∧
    calculate_precision [("a", "x")] [] = none :=
  ⟨rfl, rfl⟩

/-- C3: the claimed bound len(word) + 2 - ngram_size fails on the word cat
with ngram_size 2, where tokenize_word returns 4 n-grams but the bound is 3. -/
theorem tokenize_word_cat_two_exceeds_bound :
    ¬ ((tokenize_word ['c','a','t'] 2).length ≤ ['c','a','t'].length + 2 - 2) := by
  decide

/-- C3 (amended): for every word and every ngram_size ≥ 1, the number of
n-grams returned by tokenize_word is at most len(word) + 3 - ngram_size
(the padded word has len(word) + 2 characters and contributes one window per
start position 0..len(padded) - ngram_size). -/
theorem tokenize_word_length_bound_amended (word : List Char) (ngram_size : Nat)
    (h : 1 ≤ ngram_size) :
    (tokenize_word word ngram_size).length ≤ word.length + 3 - ngram_size := by
  simp only [tokenize_word]
  refine Nat.le_trans (List.length_filter_le _ _) ?_
  simp only [List.length_map, List.length_range, List.length_append,
    List.length_cons, List.length_nil]
  omega

/-- Witness for C3 (amended) at word cat and ngram_size 2. -/
theorem tokenize_word_length_bound_amended_witness :
    1 ≤ 2 ∧ (tokenize_word ['c','a','t'] 2).length ≤ ['c','a','t'].length + 3 - 2 :=
  ⟨by decide, tokenize_word_length_bound_amended ['c','a','t'] 2 (by decide)⟩

/-- C4: extract_char_ngrams does not process the text per newline-separated
line: str.split is called with the literal separator '\r?\n', so the
two-line text http://a.b/c, hello world is handled as a single line, the
URL guard never fires, and the n-grams of http are counted; the per-line
reference computation of the claim counts no letter t at all. -/
theorem extract_char_ngrams_literal_split_divergence :
    extract_char_ngrams "http://a.b/c\nhello world".data "xx" 1 ['t'] = 2 ∧
    extract_char_ngrams_per_line "http://a.b/c\nhello world".data "xx" 1 ['t'] = 0 :=
  ⟨by decide, by decide⟩

/-- C5: for every regular file of the source directory, the batch conversion
produces a same-named destination file in which every stripped input line is
replaced by its space-joined character n-gram transformation. -/
theorem convert_dir_writes_converted_file (entries : List DirEntry)
    (ngram_length : Nat) (e : DirEntry) (he : e ∈ entries)
    (hf : e.isFile = true) :
    (e.name, e.lines.map (fun line =>
        string_to_char_ngram_string (pyStrip line) ngram_length)) ∈
      convert_dir_main entries ngram_length := by
  unfold convert_dir_main
  exact List.mem_map.mpr ⟨e, List.mem_filter.mpr ⟨he, hf⟩, rfl⟩

/-- Witness for C5 on a one-file directory. -/
theorem convert_dir_writes_converted_file_witness :
    ("f.txt", [[' ','a',' ','a','b',' ','b',' ']]) ∈
      convert_dir_main [⟨"f.txt", true, [['a','b']]⟩] 2 :=
  convert_dir_writes_converted_file [⟨"f.txt", true, [['a','b']]⟩] 2
    ⟨"f.txt", true, [['a','b']]⟩ (List.mem_singleton.mpr rfl) rfl

/-- C6: every text containing no whitespace character (in the sense of the
space pattern, whitespace plus the five space variants) and containing a
forward slash makes get_natural_language_words return the empty list. -/
theorem url_guard_returns_empty (text : List Char)
    (h1 : ∀ c ∈ text, isSpacePatternChar c = false) (h2 : '/' ∈ text) :
    get_natural_language_words text = [] := by
  have hany : text.any isSpacePatternChar = false := by
    rw [List.any_eq_false]
    intro c hc
    simp [h1 c hc]
  have hcont : text.contains '/' = true := by
    simpa [List.contains] using h2
  have hguard : (!(text.any isSpacePatternChar) && text.contains '/') = true := by
    rw [hany, hcont]
    rfl
  rw [get_natural_language_words_eq, if_pos hguard]

/-- Witness for C6 at the URL of the spec's test table. -/
theorem url_guard_returns_empty_witness :
    (∀ c ∈ "http://example.com/page".data, isSpacePatternChar c = false) ∧
    '/' ∈ "http://example.com/page".data ∧
    get_natural_language_words "http://example.com/page".data = [] :=
  ⟨by decide, by decide,
   url_guard_returns_empty "http://example.com/page".data (by decide) (by decide)⟩

/-- C7: every word returned by get_natural_language_words has length at least
2 and contains no digit and no underscore; in particular, on the sentence of
the spec's test table, a2 is dropped while reading and book are kept. -/
theorem nl_words_short_digit_underscore_dropped :
    (∀ (text : List Char) (w : List Char),
      w ∈ get_natural_language_words text →
        2 ≤ w.length ∧ ∀ c ∈ w, isDigitChar c = false ∧ c ≠ '_') ∧
    ['a','2'] ∉ get_natural_language_words "I'm reading a2 book".data ∧
    ['r','e','a','d','i','n','g'] ∈
      get_natural_language_words "I'm reading a2 book".data ∧
    ['b','o','o','k'] ∈ get_natural_language_words "I'm reading a2 book".data := by
  refine ⟨?_, by decide, by decide, by decide⟩
  intro text w hw
  rw [get_natural_language_words_eq] at hw
  by_cases hg : (!(text.any isSpacePatternChar) && text.contains '/') = true
  · rw [if_pos hg] at hw
    cases hw
  · rw [if_neg hg] at hw
    have hkeep : (!nl_word_dropped w) = true := (List.mem_filter.mp hw).2
    have hdrop : nl_word_dropped w = false := by simpa using hkeep
    simp only [nl_word_dropped, nl_word_fullmatch, Bool.or_eq_false_iff,
      decide_eq_false_iff_not, Nat.not_lt, Bool.not_eq_false',
      Bool.and_eq_true, List.all_eq_true] at hdrop
    obtain ⟨hlen, _, hall⟩ := hdrop
    refine ⟨hlen, ?_⟩
    intro c hc
    have hch := hall c hc
    simp only [isNLWordChar, Bool.and_eq_true, Bool.not_eq_true',
      decide_eq_false_iff_not] at hch
    exact ⟨hch.1.1, hch.1.2⟩

/-- C8: for every input text, get_natural_language_words returns exactly the
order-preserving filter of the regex candidate list by the keep condition
(outside the URL-guard case), so surviving candidates appear in original
left-to-right order and duplicate occurrences are each kept, despite the
in-place reverse-iteration remove-by-value loop. -/
theorem nl_words_eq_ordered_filter (text : List Char) :
    get_natural_language_words text =
      if !(text.any isSpacePatternChar) && text.contains '/' then []
      else (word_split_findall text).filter (fun w => !nl_word_dropped w) :=
  get_natural_language_words_eq text

/-- C9: for every word and every language code without an entry in the static
charset tables (any code other than lv), is_valid_language_word returns
true. -/
theorem unknown_language_always_valid (word : List Char) (language : String)
    (h : language ≠ "lv") : is_valid_language_word word language = true := by
  have h1 : get_language_charset language = none := by
    simp [get_language_charset, List.lookup, beq_eq_false_iff_ne.mpr h]
  have h2 : get_language_exclude_charset language = none := by
    simp [get_language_exclude_charset, List.lookup, beq_eq_false_iff_ne.mpr h]
  simp [is_valid_language_word, h1, h2]

/-- Witness for C9 at the word cat and the unknown language code xx. -/
theorem unknown_language_always_valid_witness :
    "xx" ≠ "lv" ∧ is_valid_language_word ['c','a','t'] "xx" = true :=
  ⟨by decide, unknown_language_always_valid ['c','a','t'] "xx" (by decide)⟩

/-- C10: for every ngram_size ≥ 1, tokenize_word of the empty word returns
the empty list: the padded word consists of two spaces, so every candidate
window strips to the empty string and is filtered out. -/
theorem tokenize_word_empty_returns_nil (ngram_size : Nat)
    (h : 1 ≤ ngram_size) : tokenize_word [] ngram_size = [] := by
  simp only [tokenize_word]
  rw [List.filter_eq_nil_iff]
  intro w hw
  simp only [List.mem_map] at hw
  obtain ⟨i, _, rfl⟩ := hw
  have hall : ∀ c ∈ (List.drop i [' ', ' ']).take ngram_size, c = ' ' := by
    intro c hc
    have hmem : c ∈ ([' ', ' '] : List Char) :=
      List.drop_subset _ _ (List.take_subset _ _ hc)
    simpa using hmem
  simp [pyStrip_eq_nil_of_all_space _ hall]

/-- Witness for C10 at ngram_size 3. -/
theorem tokenize_word_empty_returns_nil_witness :
    1 ≤ 3 ∧ tokenize_word [] 3 = [] :=
  ⟨by decide, tokenize_word_empty_returns_nil 3 (by decide)⟩
